import Mathlib

/-!
Verification of the wdm download engine (Rust/Tauri) against its
natural-language specification.  The Rust sources are shallowly embedded:
`u64` arithmetic is `Nat` with explicit wrapping modulo `2 ^ 64` where the
source can overflow, fallible operations return `Option`/`Except`, and the
stateful control surface is modelled by explicit state passing over a pure
application-state record.
-/

namespace Wdm

/-! ## Machine-integer model: Rust `u64` (release semantics: wrapping) -/

/-- `2 ^ 64`, the modulus of Rust `u64` arithmetic. -/
def W64 : Nat := 2 ^ 64

/-- Reduce a value into the `u64` range. -/
def wrap64 (x : Nat) : Nat := x % W64

/-- Rust `u64` subtraction `a - b` (wrapping on underflow, as in release
builds); `a` and `b` are assumed already reduced below `2 ^ 64`. -/
def sub64 (a b : Nat) : Nat := wrap64 (wrap64 a + W64 - wrap64 b)

/-! ## Data model (`src-tauri/src/persistence.rs`) -/

/-- `enum DownloadStatus` from persistence.rs. -/
inductive DownloadStatus where
  | Pending
  | Downloading
  | Paused
  | Completed
  | Failed
  | Cancelled
deriving DecidableEq, Repr

/-- `struct ChunkRecord` from persistence.rs.  The Rust field `end` is a
Lean keyword, hence the quoted name. -/
structure ChunkRecord where
  id : Nat
  start : Nat
  «end» : Nat
  downloaded : Nat
deriving DecidableEq, Repr

/-- `struct DownloadRecord` from persistence.rs. -/
structure DownloadRecord where
  id : String
  url : String
  filename : String
  file_path : String
  total_size : Nat
  resumable : Bool
  status : DownloadStatus
  num_connections : Nat
  chunks : List ChunkRecord
  created_at : Int
  updated_at : Int
deriving DecidableEq, Repr

/-- The chunk-plan loop shared by `DownloadRecord::new` (persistence.rs
136-152) and the fresh-plan branch of `download_chunked` (downloader.rs
20-41): `chunk_size = total_size / num_connections`, chunk `i` spans
`i*chunk_size ..= (i+1)*chunk_size - 1`, the last chunk ends at
`total_size - 1`.  The `- 1` is `u64` subtraction and wraps when
`chunk_size = 0`. -/
def planChunks (total_size num_connections : Nat) : List ChunkRecord :=
  let chunk_size := total_size / num_connections
  (List.range num_connections).map fun i =>
    { id := i
      start := wrap64 (i * chunk_size)
      «end» := if i = num_connections - 1 then sub64 total_size 1
               else sub64 (wrap64 ((i + 1) * chunk_size)) 1
      downloaded := 0 }

/-- `DownloadRecord::new` (persistence.rs 126-168); `now` is the value of
`chrono::Utc::now().timestamp()`. -/
def DownloadRecord.new (id url filename file_path : String) (total_size : Nat)
    (resumable : Bool) (num_connections : Nat) (now : Int) : DownloadRecord :=
  { id := id
    url := url
    filename := filename
    file_path := file_path
    total_size := total_size
    resumable := resumable
    status := DownloadStatus.Pending
    num_connections := num_connections
    chunks := planChunks total_size num_connections
    created_at := now
    updated_at := now }

/-- `DownloadRecord::total_downloaded` (persistence.rs 170-172). -/
def DownloadRecord.total_downloaded (r : DownloadRecord) : Nat :=
  (r.chunks.map (·.downloaded)).sum

/-- The fresh-plan branch of `download_chunked` (downloader.rs 30-41)
producing `(id, start, end, downloaded)` tuples. -/
def downloadChunkedFreshPlan (total_size num_connections : Nat) :
    List (Nat × Nat × Nat × Nat) :=
  let chunk_size := total_size / num_connections
  (List.range num_connections).map fun i =>
    (i, wrap64 (i * chunk_size),
      if i = num_connections - 1 then sub64 total_size 1
      else sub64 (wrap64 ((i + 1) * chunk_size)) 1, 0)

/-- The segment-partition property claimed for the planner (C1), stated for
one `(S, n)` pair: `n` segments, segment `i` starts at `i * chunk_size`,
contiguity, last segment ends at `S - 1`, the sizes `end - start + 1` sum
to `S`, all but the last segment have size `chunk_size` and the last has
size `chunk_size + S % n`, exceeding the others by at most `n - 1`; the
fresh-plan branch of `download_chunked` computes the same plan. -/
def chunkPlanGood (S n : Nat) : Prop :=
  let cs := S / n
  let L := planChunks S n
  let d : ChunkRecord := ⟨0, 0, 0, 0⟩
  L.length = n ∧
  (∀ i < n, (L.getD i d).start = i * cs) ∧
  (∀ i < n - 1, (L.getD i d).«end» + 1 = (L.getD (i + 1) d).start) ∧
  (L.getD (n - 1) d).«end» = S - 1 ∧
  (L.map fun c => c.«end» - c.start + 1).sum = S ∧
  (∀ i < n - 1, (L.getD i d).«end» - (L.getD i d).start + 1 = cs) ∧
  (L.getD (n - 1) d).«end» - (L.getD (n - 1) d).start + 1 = cs + S % n ∧
  S % n ≤ n - 1 ∧
  downloadChunkedFreshPlan S n = L.map fun c => (c.id, c.start, c.«end», c.downloaded)

instance (S n : Nat) : Decidable (chunkPlanGood S n) := by
  unfold chunkPlanGood; infer_instance

theorem getD_map_range {α : Type} (n i : Nat) (f : Nat → α) (hi : i < n) (d : α) :
    ((List.range n).map f).getD i d = f i := by
  simp [List.getD, List.getElem?_map, List.getElem?_range, hi]

theorem planChunks_eq_unwrapped (S n : Nat) (h1 : 1 ≤ n) (h3 : n ≤ S) (h4 : S < W64) :
    planChunks S n = (List.range n).map (fun i =>
      { id := i, start := i * (S / n),
        «end» := if i = n - 1 then S - 1 else (i + 1) * (S / n) - 1,
        downloaded := 0 }) := by
  have h4' : S < 18446744073709551616 := by simpa [W64] using h4
  have hn0 : 0 < n := h1
  have hS1 : 1 ≤ S := Nat.le_trans h1 h3
  have hcs : 1 ≤ S / n := (Nat.one_le_div_iff hn0).mpr h3
  have hmul : ∀ j, j ≤ n → j * (S / n) ≤ S := by
    intro j hj
    calc j * (S / n) ≤ n * (S / n) := Nat.mul_le_mul_right _ hj
      _ = S / n * n := Nat.mul_comm _ _
      _ ≤ S := Nat.div_mul_le_self S n
  unfold planChunks
  refine List.map_congr_left (fun i hi => ?_)
  rw [List.mem_range] at hi
  have hiS : i * (S / n) ≤ S := hmul i (Nat.le_of_lt hi)
  have hstart : wrap64 (i * (S / n)) = i * (S / n) := by
    simp only [wrap64, W64]
    omega
  by_cases hlast : i = n - 1
  · have hend : sub64 S 1 = S - 1 := by
      simp only [sub64, wrap64, W64]
      omega
    simp only [if_pos hlast, hstart, hend]
  · have hA1 : 1 ≤ (i + 1) * (S / n) := by
      have := Nat.mul_le_mul (Nat.succ_le_succ (Nat.zero_le i)) hcs
      simpa using this
    have hA2 : (i + 1) * (S / n) ≤ S := hmul (i + 1) (by omega)
    have hend : sub64 (wrap64 ((i + 1) * (S / n))) 1 = (i + 1) * (S / n) - 1 := by
      simp only [sub64, wrap64, W64]
      omega
    simp only [if_neg hlast, hstart, hend]

/-- C1 (counterexample): the claim quantifies over every `S > 0` and
`n ∈ [1, 32]`, but at `S = 1`, `n = 2` the planner's `chunk_size` is `0`
and the `u64` expression `(i + 1) * chunk_size - 1` wraps, so the
produced segments do not partition `[0, 1)`: their sizes do not sum to
`S`. -/
theorem chunkPlan_claim_counterexample :
    (0 < 1 ∧ 1 ≤ 2 ∧ 2 ≤ 32) ∧ ¬ chunkPlanGood 1 2 := by
  constructor
  · exact ⟨Nat.one_pos, by norm_num, by norm_num⟩
  · intro h
    have hsum := h.2.2.2.2.1
    revert hsum
    decide

/-- C1 (amended): for every `n ∈ [1, 32]` and every `S` with `n ≤ S < 2^64`
(so that `chunk_size ≥ 1` and no `u64` wrap occurs), the planner produces
exactly `n` segments that partition `[0, S)` contiguously and disjointly,
with only the last segment's size exceeding the others, by `S % n ≤ n - 1`
bytes, and the fresh-plan branch of `download_chunked` computes the same
plan. -/
theorem chunkPlan_partition (S n : Nat) (h1 : 1 ≤ n) (h2 : n ≤ 32)
    (h3 : n ≤ S) (h4 : S < W64) : chunkPlanGood S n := by
  obtain ⟨m, rfl⟩ : ∃ m, n = m + 1 := ⟨n - 1, by omega⟩
  have h4' : S < 18446744073709551616 := by simpa [W64] using h4
  have hn0 : 0 < m + 1 := h1
  have hcs : 1 ≤ S / (m + 1) := (Nat.one_le_div_iff hn0).mpr h3
  have hmul : ∀ j, j ≤ m + 1 → j * (S / (m + 1)) ≤ S := by
    intro j hj
    calc j * (S / (m + 1)) ≤ (m + 1) * (S / (m + 1)) := Nat.mul_le_mul_right _ hj
      _ = S / (m + 1) * (m + 1) := Nat.mul_comm _ _
      _ ≤ S := Nat.div_mul_le_self S (m + 1)
  have hS1 : 1 ≤ S := Nat.le_trans h1 h3
  have hdm : (m + 1) * (S / (m + 1)) + S % (m + 1) = S := Nat.div_add_mod S (m + 1)
  have hsucm : ∀ i : Nat, (i + 1) * (S / (m + 1)) = i * (S / (m + 1)) + S / (m + 1) :=
    fun i => Nat.succ_mul i (S / (m + 1))
  have hfresh : downloadChunkedFreshPlan S (m + 1)
      = (planChunks S (m + 1)).map fun c => (c.id, c.start, c.«end», c.downloaded) := by
    unfold downloadChunkedFreshPlan planChunks
    simp [List.map_map]
  rw [chunkPlanGood]
  rw [planChunks_eq_unwrapped S (m + 1) h1 h3 h4] at hfresh ⊢
  have hm1 : m + 1 - 1 = m := by omega
  refine ⟨by simp, ?_, ?_, ?_, ?_, ?_, ?_, ?_, hfresh⟩
  · intro i hi
    rw [getD_map_range (m + 1) i _ hi]
  · intro i hi
    rw [hm1] at hi
    have hi1 : i < m + 1 := by omega
    have hi2 : i + 1 < m + 1 := by omega
    rw [getD_map_range (m + 1) i _ hi1, getD_map_range (m + 1) (i + 1) _ hi2]
    have hne : ¬ (i = m + 1 - 1) := by omega
    have hA1 : 1 ≤ (i + 1) * (S / (m + 1)) := by
      have := Nat.mul_le_mul (Nat.succ_le_succ (Nat.zero_le i)) hcs
      simpa using this
    simp only [if_neg hne]
    omega
  · rw [getD_map_range (m + 1) (m + 1 - 1) _ (by omega)]
    simp [hm1]
  · -- sizes sum to S
    rw [List.map_map, List.range_succ, List.map_append, List.sum_append]
    have hbody : (List.range m).map
          ((fun c : ChunkRecord => c.«end» - c.start + 1) ∘ (fun i =>
            ({ id := i, start := i * (S / (m + 1)),
               «end» := if i = m + 1 - 1 then S - 1
                        else (i + 1) * (S / (m + 1)) - 1,
               downloaded := 0 } : ChunkRecord)))
        = (List.range m).map (fun _ => S / (m + 1)) := by
      refine List.map_congr_left (fun i hi => ?_)
      rw [List.mem_range] at hi
      have hne : ¬ (i = m + 1 - 1) := by omega
      have hA1 : 1 ≤ (i + 1) * (S / (m + 1)) := by
        have := Nat.mul_le_mul (Nat.succ_le_succ (Nat.zero_le i)) hcs
        simpa using this
      have hstep := hsucm i
      simp only [Function.comp, if_neg hne]
      omega
    rw [hbody, List.map_const', List.sum_replicate, List.length_range, smul_eq_mul]
    have hone : (m + 1 - 1 = m) = True := by simp
    have hlastv : (m + 1) * (S / (m + 1)) = m * (S / (m + 1)) + S / (m + 1) := hsucm m
    have hmS : m * (S / (m + 1)) ≤ S := hmul m (by omega)
    simp only [Function.comp, List.map_cons, List.map_nil, List.sum_cons, List.sum_nil,
      hm1, eq_self_iff_true, if_true, Nat.add_zero]
    omega
  · intro i hi
    rw [hm1] at hi
    have hi1 : i < m + 1 := by omega
    rw [getD_map_range (m + 1) i _ hi1]
    have hne : ¬ (i = m + 1 - 1) := by omega
    have hA1 : 1 ≤ (i + 1) * (S / (m + 1)) := by
      have := Nat.mul_le_mul (Nat.succ_le_succ (Nat.zero_le i)) hcs
      simpa using this
    have hstep := hsucm i
    simp only [if_neg hne]
    omega
  · rw [getD_map_range (m + 1) (m + 1 - 1) _ (by omega)]
    have hlastv : (m + 1) * (S / (m + 1)) = m * (S / (m + 1)) + S / (m + 1) := hsucm m
    have hmS : (m + 1) * (S / (m + 1)) ≤ S := hmul (m + 1) (by omega)
    simp only [hm1, eq_self_iff_true, if_true]
    omega
  · have := Nat.mod_lt S hn0
    omega

/-- Witness for the amended C1 at the spec's worked example `S = 1000`,
`n = 4`. -/
theorem chunkPlan_partition_witness : chunkPlanGood 1000 4 :=
  chunkPlan_partition 1000 4 (by norm_num) (by norm_num) (by norm_num)
    (by norm_num [W64])

/-! ## In-memory state (`src-tauri/src/state.rs`, `src-tauri/src/lib.rs`) -/

/-- `struct ChunkProgress` emitted inside progress events. -/
structure ChunkProgress where
  id : Nat
  downloaded : Nat
  total : Nat
deriving DecidableEq, Repr

/-- The fire-and-forget events emitted to the presentation layer.  The
`speed` field of a progress event is `f64` in the source; the values the
reporter produces there are exact small integers (`10 ×` a byte delta, or
`0`), so it is modelled as `Nat`. -/
inductive Event where
  | progress (id : String) (downloaded total speed : Nat) (status : String)
      (chunk_progress : List ChunkProgress)
  | complete (id path filename : String) (total_size : Nat)
  | errorEv (id error : String)
deriving DecidableEq, Repr

/-- `struct DownloadHandle`: the in-memory control block.  Atomics are
modelled by their current values. -/
structure DownloadHandle where
  id : String
  cancelled : Bool
  paused : Bool
  chunk_downloaded : List Nat
  speed_limit : Nat
deriving DecidableEq, Repr

/-- `struct Settings` from lib.rs. -/
structure Settings where
  connections : Nat
  download_folder : Option String
  speed_limit : Nat
deriving DecidableEq, Repr

/-- Association-list lookup, modelling `HashMap::get`. -/
def lookupA {α : Type} : List (String × α) → String → Option α
  | [], _ => none
  | p :: t, k => if p.1 = k then some p.2 else lookupA t k

/-- Association-list insert, modelling `HashMap::insert` (replaces an
existing binding for the key). -/
def insertA {α : Type} : List (String × α) → String → α → List (String × α)
  | [], k, v => [(k, v)]
  | p :: t, k, v => if p.1 = k then (k, v) :: t else p :: insertA t k v

/-- Association-list removal, modelling `HashMap::remove` (keys in a
`HashMap` are unique, so removal drops every binding of the key). -/
def removeA {α : Type} : List (String × α) → String → List (String × α)
  | [], _ => []
  | p :: t, k => if p.1 = k then removeA t k else p :: removeA t k

/-- The ledger: `DownloadHistory.downloads`, a map from id to record. -/
abbrev History : Type := List (String × DownloadRecord)

/-- `DownloadHistory::update_download` (persistence.rs 95-100): apply the
mutator to the record with the given id, if present, and stamp
`updated_at = now`. -/
def update_download : History → String →
    (DownloadRecord → DownloadRecord) → Int → History
  | [], _, _, _ => []
  | p :: t, id, f, now =>
    if p.1 = id then (p.1, { f p.2 with updated_at := now }) :: t
    else p :: update_download t id f now

/-- The shared application state (`AppState`): active handles, settings and
the ledger. -/
structure AppState where
  downloads : List (String × DownloadHandle)
  settings : Settings
  history : History

/-- Restart reconciliation from `run()` (lib.rs 1117-1127): every record
whose status is `Downloading` is demoted to `Paused` with a fresh
`updated_at`; every other record is untouched. -/
def reconcileOnStartup (h : History) (now : Int) : History :=
  h.map fun p =>
    if p.2.status = DownloadStatus.Downloading then
      (p.1, { p.2 with status := DownloadStatus.Paused, updated_at := now })
    else p

/-- C10: every record built by `DownloadRecord::new` starts with status
`Pending`, zero `downloaded` in every chunk (hence `total_downloaded() = 0`)
and `created_at = updated_at`. -/
theorem record_new_initial_state (id url filename file_path : String)
    (total_size : Nat) (resumable : Bool) (num_connections : Nat) (now : Int) :
    (DownloadRecord.new id url filename file_path total_size resumable
      num_connections now).status = DownloadStatus.Pending ∧
    (∀ c ∈ (DownloadRecord.new id url filename file_path total_size resumable
      num_connections now).chunks, c.downloaded = 0) ∧
    (DownloadRecord.new id url filename file_path total_size resumable
      num_connections now).total_downloaded = 0 ∧
    (DownloadRecord.new id url filename file_path total_size resumable
      num_connections now).created_at =
      (DownloadRecord.new id url filename file_path total_size resumable
        num_connections now).updated_at := by
  refine ⟨rfl, ?_, ?_, rfl⟩
  · intro c hc
    simp only [DownloadRecord.new, planChunks, List.mem_map, List.mem_range] at hc
    obtain ⟨i, _, rfl⟩ := hc
    rfl
  · simp only [DownloadRecord.total_downloaded, DownloadRecord.new, planChunks,
      List.map_map]
    have : ∀ x ∈ List.range num_connections,
        ((fun c : ChunkRecord => c.downloaded) ∘ fun i =>
          ({ id := i, start := wrap64 (i * (total_size / num_connections)),
             «end» := if i = num_connections - 1 then sub64 total_size 1
                      else sub64 (wrap64 ((i + 1) * (total_size / num_connections))) 1,
             downloaded := 0 } : ChunkRecord)) x = (fun _ => 0) x := by
      intro x _
      rfl
    rw [List.map_congr_left this, List.map_const', List.sum_replicate, smul_eq_mul,
      Nat.mul_zero]

/-- C5: restart reconciliation demotes exactly the `Downloading` records to
`Paused` (stamping `updated_at = now`) and leaves every other record — and
in the demoted records every field other than `status` and `updated_at` —
unchanged; keys and order of the ledger are preserved. -/
theorem reconcile_demotes_only_downloading (h : History) (now : Int) :
    (reconcileOnStartup h now).length = h.length ∧
    ∀ i : Nat, ∀ k : String, ∀ r : DownloadRecord,
      h[i]? = some (k, r) →
      (r.status ≠ DownloadStatus.Downloading →
        (reconcileOnStartup h now)[i]? = some (k, r)) ∧
      (r.status = DownloadStatus.Downloading →
        ∃ r' : DownloadRecord,
          (reconcileOnStartup h now)[i]? = some (k, r') ∧
          r'.status = DownloadStatus.Paused ∧
          r'.updated_at = now ∧
          r'.id = r.id ∧ r'.url = r.url ∧ r'.filename = r.filename ∧
          r'.file_path = r.file_path ∧ r'.total_size = r.total_size ∧
          r'.resumable = r.resumable ∧
          r'.num_connections = r.num_connections ∧ r'.chunks = r.chunks ∧
          r'.created_at = r.created_at) := by
  constructor
  · simp [reconcileOnStartup]
  · intro i k r hi
    constructor
    · intro hst
      simp only [reconcileOnStartup, List.getElem?_map, hi, Option.map_some']
      simp [hst]
    · intro hst
      refine ⟨{ r with status := DownloadStatus.Paused, updated_at := now }, ?_,
        rfl, rfl, rfl, rfl, rfl, rfl, rfl, rfl, rfl, rfl, rfl⟩
      simp only [reconcileOnStartup, List.getElem?_map, hi, Option.map_some']
      simp [hst]

/-- Witness for C5 at a concrete two-record ledger: the `Downloading`
record is demoted with all other fields kept, the `Completed` record is
untouched. -/
theorem reconcile_demotes_only_downloading_witness :
    let r1 : DownloadRecord := DownloadRecord.new "a" "u1" "f1" "p1" 10 true 2 5
    let r2 : DownloadRecord :=
      { DownloadRecord.new "b" "u2" "f2" "p2" 20 false 1 6 with
          status := DownloadStatus.Downloading }
    let h : History := [("a", r1), ("b", r2)]
    (reconcileOnStartup h 99)[0]? = some ("a", r1) ∧
    ∃ r' : DownloadRecord,
      (reconcileOnStartup h 99)[1]? = some ("b", r') ∧
      r'.status = DownloadStatus.Paused ∧ r'.updated_at = 99 ∧
      r'.created_at = r2.created_at ∧ r'.chunks = r2.chunks := by
  intro r1 r2 h
  have hmain := reconcile_demotes_only_downloading h 99
  refine ⟨(hmain.2 0 "a" r1 rfl).1 (by decide), ?_⟩
  obtain ⟨r', hr1, hr2, hr3, _, _, _, _, _, _, _, hchunks, hcr⟩ :=
    (hmain.2 1 "b" r2 rfl).2 rfl
  exact ⟨r', hr1, hr2, hr3, hcr, hchunks⟩

/-! ## Worker exit and resume (`src-tauri/src/commands.rs`, mirrored in
`src-tauri/src/lib.rs`) -/

/-- Substring containment on character lists. -/
def listContainsSub (pat : List Char) : List Char → Bool
  | [] => pat.isEmpty
  | c :: rest => pat.isPrefixOf (c :: rest) || listContainsSub pat rest

/-- Rust `str::contains(pat)` for string patterns: case-sensitive substring
containment. -/
def containsSub (s pat : String) : Bool :=
  listContainsSub pat.toList s.toList

/-- The terminal-status mapping as the code computes it
(`Ok → Completed`; `Err` containing `"cancelled"` case-SENSITIVELY
→ Cancelled; other `Err → Failed`). -/
def specStatusCaseSensitive (result : Except String String) : DownloadStatus :=
  match result with
  | Except.ok _ => DownloadStatus.Completed
  | Except.error e =>
      if containsSub e "cancelled" then DownloadStatus.Cancelled
      else DownloadStatus.Failed

/-- ASCII lowercasing of a string, character by character (used to express
the claim's case-insensitive matching). -/
def toLowerStr (s : String) : String :=
  String.mk (s.toList.map Char.toLower)

/-- The terminal-status mapping as the claim words it: `"cancelled"`
matched as a case-INSENSITIVE substring. -/
def specStatusCaseInsensitive (result : Except String String) : DownloadStatus :=
  match result with
  | Except.ok _ => DownloadStatus.Completed
  | Except.error e =>
      if containsSub (toLowerStr e) "cancelled" then DownloadStatus.Cancelled
      else DownloadStatus.Failed

/-- The worker-exit sequence of `start_download` /
`resume_interrupted_download` (commands.rs 250-283, lib.rs 381-415): remove
the handle from the active map, set the record's terminal status from the
transferor's result, and emit a `download-error` event only for an `Err`
that does not contain `"cancelled"`. -/
def workerExit (st : AppState) (id : String) (result : Except String String)
    (now : Int) : AppState × List Event :=
  let downloads := removeA st.downloads id
  let history :=
    match result with
    | Except.ok _ =>
        update_download st.history id
          (fun r => { r with status := DownloadStatus.Completed }) now
    | Except.error e =>
        if containsSub e "cancelled" then
          update_download st.history id
            (fun r => { r with status := DownloadStatus.Cancelled }) now
        else
          update_download st.history id
            (fun r => { r with status := DownloadStatus.Failed }) now
  let events :=
    match result with
    | Except.ok _ => []
    | Except.error e =>
        if containsSub e "cancelled" then [] else [Event.errorEv id e]
  ({ st with downloads := downloads, history := history }, events)

/-- What `resume_interrupted_download` passes to the spawned chunked
transferor on success. -/
structure SpawnInfo where
  url : String
  file_path : String
  total_size : Nat
  num_connections : Nat
  existing_chunks : Option (List ChunkRecord)
deriving DecidableEq, Repr

/-- `resume_interrupted_download` (commands.rs 290-402): fetch the record;
reject (with no state change) if absent, if the status is not one of
`{Paused, Failed, Downloading}`, or if not resumable; otherwise build a
handle seeded with the saved per-chunk `downloaded` values, register it,
and hand the chunked transferor its spawn arguments. -/
def resume_interrupted_download (st : AppState) (id : String) :
    AppState × Except String SpawnInfo :=
  match lookupA st.history id with
  | none => (st, Except.error "Download not found in history")
  | some record =>
    if record.status ≠ DownloadStatus.Paused ∧
        record.status ≠ DownloadStatus.Failed ∧
        record.status ≠ DownloadStatus.Downloading then
      (st, Except.error "Download cannot be resumed")
    else if ¬ record.resumable then
      (st, Except.error "This download does not support resuming")
    else
      let handle : DownloadHandle :=
        { id := id, cancelled := false, paused := false,
          chunk_downloaded := record.chunks.map (·.downloaded),
          speed_limit := st.settings.speed_limit }
      ({ st with downloads := insertA st.downloads id handle },
        Except.ok
          { url := record.url, file_path := record.file_path,
            total_size := record.total_size,
            num_connections := record.num_connections,
            existing_chunks := some record.chunks })

theorem lookupA_update_download (h : History) (id : String)
    (f : DownloadRecord → DownloadRecord) (now : Int) :
    lookupA (update_download h id f now) id =
      (lookupA h id).map (fun r => { f r with updated_at := now }) := by
  induction h with
  | nil => rfl
  | cons p t ih =>
    by_cases hp : p.1 = id
    · simp [update_download, lookupA, hp]
    · simp [update_download, lookupA, hp, ih]

theorem lookupA_removeA {α : Type} (l : List (String × α)) (k : String) :
    lookupA (removeA l k) k = none := by
  induction l with
  | nil => rfl
  | cons p t ih =>
    by_cases hp : p.1 = k
    · simp [removeA, hp, ih]
    · simp [removeA, lookupA, hp, ih]

/-- C3 (counterexample): the claim says the `"cancelled"` match is a
case-insensitive substring test, but the code's `e.contains("cancelled")`
is case-sensitive: at the result `Err "Cancelled"` the code marks the
record `Failed` and emits a `download-error` event, while the claimed
case-insensitive mapping yields `Cancelled` with no event. -/
theorem workerExit_claim_counterexample :
    let r := DownloadRecord.new "d" "u" "f" "p" 10 true 2 0
    let st : AppState :=
      { downloads := [("d", ⟨"d", false, false, [0, 0], 0⟩)],
        settings := ⟨8, none, 0⟩,
        history := [("d", { r with status := DownloadStatus.Downloading })] }
    let out := workerExit st "d" (Except.error "Cancelled") 1
    specStatusCaseInsensitive (Except.error "Cancelled") =
        DownloadStatus.Cancelled ∧
    (lookupA out.1.history "d").map (·.status) = some DownloadStatus.Failed ∧
    out.2 = [Event.errorEv "d" "Cancelled"] := by
  decide

/-- Characterization of `workerExit`'s components. -/
theorem workerExit_eq (st : AppState) (id : String)
    (result : Except String String) (now : Int) :
    workerExit st id result now =
      ({ st with downloads := removeA st.downloads id,
                 history := update_download st.history id
                   (fun r => { r with status := specStatusCaseSensitive result })
                   now },
       match result with
       | Except.ok _ => []
       | Except.error e =>
           if containsSub e "cancelled" then [] else [Event.errorEv id e]) := by
  match result with
  | Except.ok v => rfl
  | Except.error e =>
      by_cases hc : containsSub e "cancelled"
      · simp [workerExit, specStatusCaseSensitive, hc]
      · simp [workerExit, specStatusCaseSensitive, hc]

/-- C3 (amended): at worker exit the control surface maps the transferor's
result to the record's terminal status with a case-SENSITIVE substring
test (`Ok → Completed`, `Err` containing `"cancelled"` → `Cancelled`, any
other `Err → Failed`), removes the handle from the active map, and emits a
`download-error` event if and only if the result is an `Err` whose message
does not contain `"cancelled"`. -/
theorem workerExit_terminal_status (st : AppState) (id : String)
    (result : Except String String) (now : Int) (r : DownloadRecord)
    (hr : lookupA st.history id = some r) :
    lookupA (workerExit st id result now).1.history id =
      some { r with status := specStatusCaseSensitive result,
                    updated_at := now } ∧
    lookupA (workerExit st id result now).1.downloads id = none ∧
    ((workerExit st id result now).2 ≠ [] ↔
      ∃ e, result = Except.error e ∧ containsSub e "cancelled" = false) ∧
    (∀ e, result = Except.error e → containsSub e "cancelled" = false →
      (workerExit st id result now).2 = [Event.errorEv id e]) := by
  rw [workerExit_eq]
  refine ⟨?_, lookupA_removeA st.downloads id, ?_, ?_⟩
  · rw [lookupA_update_download, hr]
    rfl
  · match result with
    | Except.ok v => simp
    | Except.error e =>
        by_cases hc : containsSub e "cancelled"
        · simp [hc]
        · simp [hc]
  · intro e he hc
    subst he
    simp [hc]

/-- Witness for C3 (amended) at a concrete single-record state, exercising
an `Ok` result (record marked `Completed`, handle removed, no event). -/
theorem workerExit_terminal_status_witness :
    let r := DownloadRecord.new "d" "u" "f" "p" 10 true 2 0
    let st : AppState :=
      { downloads := [("d", ⟨"d", false, false, [0, 0], 0⟩)],
        settings := ⟨8, none, 0⟩,
        history := [("d", { r with status := DownloadStatus.Downloading })] }
    lookupA (workerExit st "d" (Except.ok "p") 1).1.history "d" =
      some { { r with status := DownloadStatus.Downloading } with
               status := specStatusCaseSensitive (Except.ok "p"),
               updated_at := 1 } ∧
    lookupA (workerExit st "d" (Except.ok "p") 1).1.downloads "d" = none := by
  intro r st
  have h := workerExit_terminal_status st "d" (Except.ok "p") 1
    { r with status := DownloadStatus.Downloading } (by decide)
  exact ⟨h.1, h.2.1⟩

theorem resume_eq_notfound (st : AppState) (id : String)
    (hl : lookupA st.history id = none) :
    resume_interrupted_download st id =
      (st, Except.error "Download not found in history") := by
  simp [resume_interrupted_download, hl]

theorem resume_eq_badstatus (st : AppState) (id : String)
    (record : DownloadRecord) (hl : lookupA st.history id = some record)
    (hst : record.status ≠ DownloadStatus.Paused ∧
      record.status ≠ DownloadStatus.Failed ∧
      record.status ≠ DownloadStatus.Downloading) :
    resume_interrupted_download st id =
      (st, Except.error "Download cannot be resumed") := by
  simp only [resume_interrupted_download, hl]
  rw [if_pos hst]

theorem resume_eq_notresumable (st : AppState) (id : String)
    (record : DownloadRecord) (hl : lookupA st.history id = some record)
    (hst : ¬ (record.status ≠ DownloadStatus.Paused ∧
      record.status ≠ DownloadStatus.Failed ∧
      record.status ≠ DownloadStatus.Downloading))
    (hres : record.resumable = false) :
    resume_interrupted_download st id =
      (st, Except.error "This download does not support resuming") := by
  simp only [resume_interrupted_download, hl]
  rw [if_neg hst]
  simp [hres]

theorem resume_eq_ok (st : AppState) (id : String)
    (record : DownloadRecord) (hl : lookupA st.history id = some record)
    (hst : ¬ (record.status ≠ DownloadStatus.Paused ∧
      record.status ≠ DownloadStatus.Failed ∧
      record.status ≠ DownloadStatus.Downloading))
    (hres : record.resumable = true) :
    resume_interrupted_download st id =
      (AppState.mk
        (insertA st.downloads id
          ⟨id, false, false, record.chunks.map (·.downloaded),
            st.settings.speed_limit⟩)
        st.settings st.history,
       Except.ok
         ⟨record.url, record.file_path, record.total_size,
           record.num_connections, some record.chunks⟩) := by
  simp only [resume_interrupted_download, hl]
  rw [if_neg hst]
  simp [hres]

/-- C4: `resume_interrupted_download` succeeds (building the handle from
the saved per-chunk progress and handing the chunked transferor the saved
plan) exactly when the id is in the ledger, the record's status is one of
`{Paused, Failed, Downloading}` and the record is resumable; in every
rejection case it returns an error and the state — ledger, active-handle
map and settings — is left unchanged. -/
theorem resume_interrupted_preconditions (st : AppState) (id : String) :
    ((∃ s, (resume_interrupted_download st id).2 = Except.ok s) ↔
      (∃ r, lookupA st.history id = some r ∧
        (r.status = DownloadStatus.Paused ∨ r.status = DownloadStatus.Failed ∨
          r.status = DownloadStatus.Downloading) ∧
        r.resumable = true)) ∧
    (∀ e, (resume_interrupted_download st id).2 = Except.error e →
      (resume_interrupted_download st id).1 = st) ∧
    (∀ r, lookupA st.history id = some r →
      (r.status = DownloadStatus.Paused ∨ r.status = DownloadStatus.Failed ∨
        r.status = DownloadStatus.Downloading) →
      r.resumable = true →
      (resume_interrupted_download st id).1.history = st.history ∧
      (resume_interrupted_download st id).1.settings = st.settings ∧
      (resume_interrupted_download st id).1.downloads =
        insertA st.downloads id
          ⟨id, false, false, r.chunks.map (·.downloaded),
            st.settings.speed_limit⟩ ∧
      (resume_interrupted_download st id).2 = Except.ok
        ⟨r.url, r.file_path, r.total_size, r.num_connections,
          some r.chunks⟩) := by
  match hl : lookupA st.history id with
  | none =>
      rw [resume_eq_notfound st id hl]
      refine ⟨?_, fun e _ => rfl, fun r hr => absurd hr (by simp)⟩
      constructor
      · rintro ⟨s, hs⟩
        exact absurd hs (by simp)
      · rintro ⟨r, hr, -, -⟩
        exact absurd hr (by simp)
  | some record =>
      by_cases hst : record.status ≠ DownloadStatus.Paused ∧
          record.status ≠ DownloadStatus.Failed ∧
          record.status ≠ DownloadStatus.Downloading
      · rw [resume_eq_badstatus st id record hl hst]
        refine ⟨?_, fun e _ => rfl, ?_⟩
        · constructor
          · rintro ⟨s, hs⟩
            exact absurd hs (by simp)
          · rintro ⟨r, hr, hsts, -⟩
            cases hr
            rcases hsts with h | h | h
            · exact absurd h hst.1
            · exact absurd h hst.2.1
            · exact absurd h hst.2.2
        · intro r hr hsts _
          cases hr
          rcases hsts with h | h | h
          · exact absurd h hst.1
          · exact absurd h hst.2.1
          · exact absurd h hst.2.2
      · by_cases hres : record.resumable
        · rw [resume_eq_ok st id record hl hst hres]
          refine ⟨?_, ?_, ?_⟩
          · constructor
            · intro _
              refine ⟨record, rfl, ?_, hres⟩
              by_contra hnone
              push_neg at hnone
              exact hst ⟨hnone.1, hnone.2.1, hnone.2.2⟩
            · rintro -
              exact ⟨_, rfl⟩
          · intro e he
            exact absurd he (by simp)
          · intro r hr _ _
            cases hr
            exact ⟨rfl, rfl, rfl, rfl⟩
        · rw [Bool.not_eq_true] at hres
          rw [resume_eq_notresumable st id record hl hst hres]
          refine ⟨?_, fun e _ => rfl, ?_⟩
          · constructor
            · rintro ⟨s, hs⟩
              exact absurd hs (by simp)
            · rintro ⟨r, hr, -, hres'⟩
              cases hr
              rw [hres] at hres'
              exact absurd hres' (by simp)
          · intro r hr _ hres'
            cases hr
            rw [hres] at hres'
            exact absurd hres' (by simp)

/-- Witness for C4 at a concrete state: a `Paused` resumable record is
accepted, and a missing id is rejected with the state unchanged. -/
theorem resume_interrupted_preconditions_witness :
    let r := { DownloadRecord.new "x" "u" "f" "p" 10 true 2 0 with
                 status := DownloadStatus.Paused }
    let st : AppState := { downloads := [], settings := ⟨8, none, 7⟩,
                           history := [("x", r)] }
    (resume_interrupted_download st "x").2 = Except.ok
      ⟨"u", "p", 10, 2, some r.chunks⟩ ∧
    (resume_interrupted_download st "y").1 = st := by
  intro r st
  constructor
  · exact ((resume_interrupted_preconditions st "x").2.2 r (by decide)
      (Or.inl (by decide)) (by decide)).2.2.2
  · exact (resume_interrupted_preconditions st "y").2.1
      "Download not found in history"
      (by rw [resume_eq_notfound st "y" (by decide)])

/-! ## Transferors (`src-tauri/src/downloader.rs`) -/

/-- The flag values observed by `download_single` for one stream item:
`cancelledAtTop` is the `cancelled` load at the top of the loop
(downloader.rs 367); `pauseObs` is the sequence of `cancelled` loads made
inside the `while paused` loop (381-400), one entry per iteration in which
`paused` was observed `true`; `emitTick` tells whether the 100 ms
progress-emission window had elapsed (408). -/
structure SingleObs where
  cancelledAtTop : Bool
  pauseObs : List Bool
  emitTick : Bool
deriving DecidableEq, Repr

/-- The `while paused` loop of `download_single` (downloader.rs 381-400):
each iteration re-checks `cancelled` (returning the cancellation outcome,
after deleting the file) and otherwise emits a `"paused"` progress
snapshot.  Returns the emitted events and whether cancellation was
observed. -/
def singlePauseLoop (id : String) (total downloaded : Nat) :
    List Bool → List Event × Bool
  | [] => ([], false)
  | c :: rest =>
    if c then ([], true)
    else
      let (evs, canc) := singlePauseLoop id total downloaded rest
      (Event.progress id downloaded total 0 "paused"
        [⟨0, downloaded, total⟩] :: evs, canc)

/-- The streaming loop of `download_single` (downloader.rs 366-439),
returning the destination file (`none` once deleted), the emitted events,
and the result.  `contents`/`downloaded`/`lastDownloaded` are the loop
state; each stream item carries the observed flags and the received
bytes. -/
def runSingleLoop (id fp fname : String) (total : Nat) :
    List (SingleObs × List Nat) → List Nat → Nat → Nat →
    Option (List Nat) × List Event × Except String String
  | [], contents, _, _ =>
      (some contents, [Event.complete id fp fname total], Except.ok fp)
  | (obs, bytes) :: rest, contents, downloaded, lastD =>
      if obs.cancelledAtTop then
        (none, [Event.progress id 0 total 0 "cancelled" []],
          Except.error "Download cancelled")
      else
        let pl := singlePauseLoop id total downloaded obs.pauseObs
        if pl.2 then (none, pl.1, Except.error "Download cancelled")
        else
          let contents' := contents ++ bytes
          let downloaded' := downloaded + bytes.length
          if obs.emitTick then
            let out := runSingleLoop id fp fname total rest contents'
              downloaded' downloaded'
            (out.1,
              pl.1 ++ Event.progress id downloaded' total
                ((downloaded' - lastD) * 10) "downloading"
                [⟨0, downloaded', total⟩] :: out.2.1,
              out.2.2)
          else
            let out := runSingleLoop id fp fname total rest contents'
              downloaded' lastD
            (out.1, pl.1 ++ out.2.1, out.2.2)

/-- `download_single` (downloader.rs 333-439) after the destination file
has been created empty. -/
def download_single (id fp fname : String) (total : Nat)
    (items : List (SingleObs × List Nat)) :
    Option (List Nat) × List Event × Except String String :=
  runSingleLoop id fp fname total items [] 0 0

/-- Stable insertion into a list sorted by chunk id. -/
def insertByKey (x : Nat × List Nat) :
    List (Nat × List Nat) → List (Nat × List Nat)
  | [] => [x]
  | y :: t => if x.1 < y.1 then x :: y :: t else y :: insertByKey x t

/-- Stable sort by chunk id, modelling `sort_by_key(|(id, _)| *id)`. -/
def sortByKey : List (Nat × List Nat) → List (Nat × List Nat)
  | [] => []
  | x :: t => insertByKey x (sortByKey t)

/-- `merge_chunks` (downloader.rs 314-331): concatenate the chunk files
into the destination file, in list order. -/
def merge_chunks (paths : List (List Nat)) : List Nat :=
  paths.flatten

/-- Lookup of a chunk file in the temp directory by chunk index,
modelling `temp_dir.join(format!("chunk_{}", i)).exists()` plus the read
of that file. -/
def lookupNat (l : List (Nat × List Nat)) (k : Nat) : Option (List Nat) :=
  (l.find? (fun p => p.1 = k)).map (·.2)

/-- The tail of `download_chunked` after all chunk workers have been
awaited (downloader.rs 179-218).  `chunkPaths` are the `(id, contents)`
pairs returned by the workers; `tempDir` is the content of
`.wdm_temp_<id>/` keyed by chunk index.  Returns the temp directory
(`none` once removed), the destination file, the emitted events and the
result: on `cancelled`, a final `"cancelled"` progress event is emitted,
the temp files are left in place, and the job fails with
`"Download cancelled"`; otherwise the chunks — augmented with pre-existing
temp files for missing ids — are merged in id order, the temp directory is
removed and a completion event is emitted. -/
def downloadChunkedFinish (id fp fname : String) (total num_connections : Nat)
    (cancelled : Bool) (chunkPaths : List (Nat × List Nat))
    (tempDir : List (Nat × List Nat)) :
    Option (List (Nat × List Nat)) × Option (List Nat) × List Event ×
      Except String String :=
  if cancelled then
    (some tempDir, none, [Event.progress id 0 total 0 "cancelled" []],
      Except.error "Download cancelled")
  else
    let sorted := sortByKey chunkPaths
    let augmented := sorted ++ (List.range num_connections).filterMap
      (fun i =>
        if sorted.any (fun p => p.1 = i) then none
        else (lookupNat tempDir i).map (fun c => (i, c)))
    let sorted2 := sortByKey augmented
    let data := merge_chunks (sorted2.map Prod.snd)
    (none, some data, [Event.complete id fp fname total], Except.ok fp)

theorem singlePauseLoop_cancelled (id : String) (total d : Nat)
    (l : List Bool) (h : true ∈ l) :
    (singlePauseLoop id total d l).2 = true := by
  induction l with
  | nil => cases h
  | cons c rest ih =>
    by_cases hc : c = true
    · simp [singlePauseLoop, hc]
    · have hr : true ∈ rest := by
        rcases List.mem_cons.mp h with h1 | h1
        · exact absurd h1.symm hc
        · exact h1
      simp [singlePauseLoop, hc, ih hr]

/-- C2: when cancellation is observed at a check point, `download_single`
deletes its partially written destination file and fails with the
cancelled error, whereas `download_chunked` emits a final progress event
with status `"cancelled"` and fails with the cancelled error while leaving
the temp segment files in place. -/
theorem cancellation_effects :
    (∀ (id fp fname : String) (total : Nat) (obs : SingleObs)
      (bytes : List Nat) (rest : List (SingleObs × List Nat))
      (contents : List Nat) (downloaded lastD : Nat),
      (obs.cancelledAtTop = true ∨ true ∈ obs.pauseObs) →
      (runSingleLoop id fp fname total ((obs, bytes) :: rest) contents
          downloaded lastD).1 = none ∧
      (runSingleLoop id fp fname total ((obs, bytes) :: rest) contents
          downloaded lastD).2.2 = Except.error "Download cancelled") ∧
    (∀ (id fp fname : String) (total num_connections : Nat)
      (chunkPaths tempDir : List (Nat × List Nat)),
      (downloadChunkedFinish id fp fname total num_connections true
          chunkPaths tempDir).1 = some tempDir ∧
      Event.progress id 0 total 0 "cancelled" [] ∈
        (downloadChunkedFinish id fp fname total num_connections true
          chunkPaths tempDir).2.2.1 ∧
      (downloadChunkedFinish id fp fname total num_connections true
          chunkPaths tempDir).2.2.2 = Except.error "Download cancelled") := by
  constructor
  · intro id fp fname total obs bytes rest contents downloaded lastD hobs
    by_cases htop : obs.cancelledAtTop = true
    · constructor <;> simp [runSingleLoop, htop]
    · have hpause : true ∈ obs.pauseObs := by
        rcases hobs with h | h
        · exact absurd h htop
        · exact h
      have hpl := singlePauseLoop_cancelled id total downloaded
        obs.pauseObs hpause
      constructor <;> simp [runSingleLoop, htop, hpl]
  · intro id fp fname total num_connections chunkPaths tempDir
    refine ⟨rfl, ?_, rfl⟩
    simp [downloadChunkedFinish]

/-- Witness for C2: a concrete single-stream run whose second item observes
cancellation in the pause loop (file deleted, cancelled error), and a
concrete cancelled chunked finish (temp files kept, cancelled event,
cancelled error). -/
theorem cancellation_effects_witness :
    (runSingleLoop "d" "p" "f" 9 [(⟨false, [false, true], false⟩, [1, 2])]
        [7] 1 0).1 = none ∧
    (runSingleLoop "d" "p" "f" 9 [(⟨false, [false, true], false⟩, [1, 2])]
        [7] 1 0).2.2 = Except.error "Download cancelled" ∧
    (downloadChunkedFinish "d" "p" "f" 9 2 true [(0, [1, 2])]
        [(1, [3])]).1 = some [(1, [3])] ∧
    (downloadChunkedFinish "d" "p" "f" 9 2 true [(0, [1, 2])]
        [(1, [3])]).2.2.2 = Except.error "Download cancelled" := by
  have h1 := cancellation_effects.1 "d" "p" "f" 9 ⟨false, [false, true], false⟩
    [1, 2] [] [7] 1 0 (Or.inr (by decide))
  have h2 := cancellation_effects.2 "d" "p" "f" 9 2 [(0, [1, 2])] [(1, [3])]
  exact ⟨h1.1, h1.2, h2.1, h2.2.2⟩

/-! ## Progress reporter (`src-tauri/src/downloader.rs` 61-122) -/

/-- One iteration of the chunked progress reporter (downloader.rs 72-104):
snapshot the per-chunk counters, sum them, compute
`speed = paused ? 0 : (total_downloaded.saturating_sub(last_total)) * 10`,
and emit a progress event; returns the event and the new `last_total`.
Rust's `saturating_sub` on `u64` is truncated subtraction, i.e. `Nat`
subtraction; the `f64` multiplication by `10.0` of the exact integer is
modelled as exact. -/
def reporterIteration (id : String) (total_size : Nat)
    (chunk_sizes : List Nat) (is_paused : Bool) (counters : List Nat)
    (last_total : Nat) : Event × Nat :=
  let chunk_progress : List ChunkProgress :=
    counters.enum.map (fun p => ⟨p.1, p.2, chunk_sizes.getD p.1 0⟩)
  let total_downloaded := (chunk_progress.map (·.downloaded)).sum
  let speed := if is_paused then 0 else (total_downloaded - last_total) * 10
  (Event.progress id total_downloaded total_size speed
    (if is_paused then "paused" else "downloading") chunk_progress,
   total_downloaded)

/-- The speed field of an emitted event. -/
def eventSpeed : Event → Nat
  | Event.progress _ _ _ s _ _ => s
  | _ => 0

theorem reporter_chunk_sum (chunk_sizes : List Nat) (counters : List Nat) :
    ((counters.enum.map (fun p =>
        (⟨p.1, p.2, chunk_sizes.getD p.1 0⟩ : ChunkProgress))).map
      (·.downloaded)).sum = counters.sum := by
  rw [List.map_map]
  have : ∀ p ∈ counters.enum,
      ((fun c : ChunkProgress => c.downloaded) ∘ fun p : Nat × Nat =>
        (⟨p.1, p.2, chunk_sizes.getD p.1 0⟩ : ChunkProgress)) p =
      Prod.snd p := fun p _ => rfl
  rw [List.map_congr_left this, List.enum_map_snd]

theorem reporter_total_eq_sum (id : String) (total_size : Nat)
    (chunk_sizes : List Nat) (is_paused : Bool) (counters : List Nat)
    (last_total : Nat) :
    (reporterIteration id total_size chunk_sizes is_paused counters
      last_total).2 = counters.sum := by
  simp only [reporterIteration]
  exact reporter_chunk_sum chunk_sizes counters

/-- C8: on every reporter iteration — for every sampled counter list,
including non-monotonic ones — the emitted speed is `0` when paused and
otherwise `10 ×` the saturating subtraction `total_downloaded ∸
last_total`; in particular when the sampled total does not exceed
`last_total` the speed is `0`, and the speed is never negative. -/
theorem reporter_speed_saturating (id : String) (total_size : Nat)
    (chunk_sizes : List Nat) (is_paused : Bool) (counters : List Nat)
    (last_total : Nat) :
    (is_paused = true →
      eventSpeed (reporterIteration id total_size chunk_sizes is_paused
        counters last_total).1 = 0) ∧
    (is_paused = false →
      eventSpeed (reporterIteration id total_size chunk_sizes is_paused
        counters last_total).1 = (counters.sum - last_total) * 10) ∧
    (is_paused = false → counters.sum ≤ last_total →
      eventSpeed (reporterIteration id total_size chunk_sizes is_paused
        counters last_total).1 = 0) ∧
    (0 : Int) ≤ eventSpeed (reporterIteration id total_size chunk_sizes
      is_paused counters last_total).1 ∧
    (reporterIteration id total_size chunk_sizes is_paused counters
      last_total).2 = counters.sum := by
  have hsum := reporter_total_eq_sum id total_size chunk_sizes is_paused
    counters last_total
  have hspeed : eventSpeed (reporterIteration id total_size chunk_sizes
      is_paused counters last_total).1 =
      if is_paused then 0 else (counters.sum - last_total) * 10 := by
    simp only [reporterIteration, eventSpeed, reporter_chunk_sum]
  refine ⟨?_, ?_, ?_, ?_, hsum⟩
  · intro hp
    subst hp
    simpa using hspeed
  · intro hp
    subst hp
    simpa using hspeed
  · intro hp hle
    subst hp
    simp only [Bool.false_eq_true, if_false] at hspeed
    rw [hspeed, Nat.sub_eq_zero_of_le hle, Nat.zero_mul]
  · exact Int.natCast_nonneg _

/-- Witness for C8 at a non-monotonic sample: counters summing to `5` after
`last_total = 100` give speed `0` (no underflow), and a paused iteration
gives speed `0`. -/
theorem reporter_speed_saturating_witness :
    eventSpeed (reporterIteration "d" 50 [10, 10] false [5, 0] 100).1 = 0 ∧
    eventSpeed (reporterIteration "d" 50 [10, 10] true [5, 0] 3).1 = 0 := by
  constructor
  · exact (reporter_speed_saturating "d" 50 [10, 10] false [5, 0] 100).2.2.1
      rfl (by norm_num)
  · exact (reporter_speed_saturating "d" 50 [10, 10] true [5, 0] 3).1 rfl

/-! ## URL prober (`src-tauri/src/commands.rs` 17-64, `src-tauri/src/utils.rs`
3-8) -/

/-- Fuel-bounded worker for `splitOnList`; the fuel only bounds the
recursion depth (one unit per examined character suffices). -/
def splitOnListAux (sep : List Char) : Nat → List Char → List (List Char)
  | _, [] => [[]]
  | 0, l => [l]
  | fuel + 1, c :: rest =>
    if !sep.isEmpty && sep.isPrefixOf (c :: rest) then
      [] :: splitOnListAux sep fuel (List.drop sep.length (c :: rest))
    else
      match splitOnListAux sep fuel rest with
      | [] => [[c]]
      | h :: t => (c :: h) :: t

/-- Rust `str::split(sep)` for a non-empty separator, on character lists:
split at each non-overlapping left-to-right occurrence of `sep`. -/
def splitOnList (sep l : List Char) : List (List Char) :=
  splitOnListAux sep l.length l

/-- Rust `str::trim_matches('"')`: strip every leading and trailing double
quote. -/
def trimMatchesQuote (l : List Char) : List Char :=
  ((l.dropWhile (· == '"')).reverse.dropWhile (· == '"')).reverse

/-- `extract_filename_from_url` (utils.rs 3-8): strip the query, take the
last path component, keep it only if non-empty and containing a dot. -/
def extract_filename_from_url (url : String) : Option String :=
  (((splitOnList ['?'] url.toList).head?).bind
      (fun path => (splitOnList ['/'] path).getLast?)).bind
    (fun s => if !s.isEmpty && s.contains '.' then some (String.mk s) else none)

/-- The `Content-Disposition` branch of `fetch_url_info` (commands.rs
48-53): `v.split("filename=").nth(1).map(|s| s.trim_matches('"'))`. -/
def cdFilename (v : String) : Option String :=
  ((splitOnList "filename=".toList v.toList)[1]?).map
    (fun s => String.mk (trimMatchesQuote s))

/-- The `resumable` field of `fetch_url_info` (commands.rs 42-46):
`Accept-Ranges` equal to exactly `"bytes"`. -/
def probeResumable (acceptRanges : Option String) : Bool :=
  (acceptRanges.map (fun v => v == "bytes")).getD false

/-- The `filename` field of `fetch_url_info` (commands.rs 48-56): the
`Content-Disposition` `filename=` parameter (quotes trimmed), else the
final URL's basename, else the original URL's basename, else
`"download"`. -/
def probeFilename (cd : Option String) (finalUrl origUrl : String) : String :=
  (((cd.bind cdFilename).orElse
      (fun _ => extract_filename_from_url finalUrl)).orElse
    (fun _ => extract_filename_from_url origUrl)).getD "download"

/-- The claim's filename rule, literally: the first NON-EMPTY candidate
among the `filename=` parameter, the basenames of the two URLs, and the
literal `"download"`. -/
def probeFilenameFirstNonEmpty (cd : Option String)
    (finalUrl origUrl : String) : String :=
  let cands := [(cd.bind cdFilename).getD "",
    (extract_filename_from_url finalUrl).getD "",
    (extract_filename_from_url origUrl).getD "", "download"]
  ((cands.filter (fun s => !s.isEmpty)).head?).getD "download"

/-- The amended filename rule: the first PRESENT candidate (the
`Content-Disposition` candidate may be the empty string and is still
taken). -/
def probeFilenameFirstPresent (cd : Option String)
    (finalUrl origUrl : String) : String :=
  match cd.bind cdFilename with
  | some s => s
  | none =>
    match extract_filename_from_url finalUrl with
    | some s => s
    | none =>
      match extract_filename_from_url origUrl with
      | some s => s
      | none => "download"

/-- C7 (counterexample): with `Content-Disposition: attachment;
filename=""` the code returns the EMPTY filename (the claim's "first
non-empty candidate" rule would have returned the URL basename
`"a.txt"`). -/
theorem probe_claim_counterexample :
    probeFilename (some "attachment; filename=\"\"") "http://h/a.txt"
      "http://h/a.txt" = "" ∧
    probeFilenameFirstNonEmpty (some "attachment; filename=\"\"")
      "http://h/a.txt" "http://h/a.txt" = "a.txt" ∧
    ("" : String) ≠ "a.txt" := by
  refine ⟨?_, ?_, by decide⟩
  · rfl
  · rfl

/-- C7 (amended): for every successful probe, `resumable` is `true` iff the
`Accept-Ranges` header equals exactly `"bytes"`, and the returned filename
is the first AVAILABLE candidate among: the `filename=` parameter of
`Content-Disposition` with surrounding double quotes stripped (possibly
empty), the basename of the final URL, the basename of the original URL
(both of which are non-empty and contain a dot whenever used), and the
literal `"download"`. -/
theorem probe_resumable_and_filename (cd acceptRanges : Option String)
    (finalUrl origUrl : String) :
    (probeResumable acceptRanges = true ↔ acceptRanges = some "bytes") ∧
    probeFilename cd finalUrl origUrl =
      probeFilenameFirstPresent cd finalUrl origUrl ∧
    (∀ u s, extract_filename_from_url u = some s →
      ¬ s = "" ∧ s.toList.contains '.' = true) := by
  refine ⟨?_, ?_, ?_⟩
  · cases acceptRanges with
    | none => simp [probeResumable]
    | some v =>
        simp [probeResumable]
  · cases h1 : cd.bind cdFilename with
    | some s => simp [probeFilename, probeFilenameFirstPresent, h1, Option.orElse]
    | none =>
      cases h2 : extract_filename_from_url finalUrl with
      | some s =>
          simp [probeFilename, probeFilenameFirstPresent, h1, h2, Option.orElse]
      | none =>
        cases h3 : extract_filename_from_url origUrl with
        | some s =>
            simp [probeFilename, probeFilenameFirstPresent, h1, h2, h3,
              Option.orElse]
        | none =>
            simp [probeFilename, probeFilenameFirstPresent, h1, h2, h3,
              Option.orElse]
  · intro u s hs
    simp only [extract_filename_from_url, Option.bind_eq_some] at hs
    obtain ⟨last, -, hlast⟩ := hs
    by_cases hc : (!last.isEmpty && last.contains '.') = true
    · rw [if_pos hc] at hlast
      injection hlast with hlast
      subst hlast
      rw [Bool.and_eq_true] at hc
      refine ⟨?_, hc.2⟩
      intro hemp
      have hnil : last = [] := by
        have := congrArg String.data hemp
        simpa using this
      rw [hnil] at hc
      simp at hc
    · rw [if_neg hc] at hlast
      cases hlast

/-- Witness for C7 (amended) at concrete headers: `Accept-Ranges: bytes`
gives `resumable`, and with no `Content-Disposition` the final URL's
basename is chosen. -/
theorem probe_resumable_and_filename_witness :
    probeResumable (some "bytes") = true ∧
    probeFilename none "http://h/dir/file.bin?x=1" "http://h/orig" =
      probeFilenameFirstPresent none "http://h/dir/file.bin?x=1"
        "http://h/orig" ∧
    ¬ ("file.bin" : String) = "" ∧ "file.bin".toList.contains '.' = true := by
  refine ⟨?_, ?_, ?_⟩
  · exact (probe_resumable_and_filename none (some "bytes") "" "").1.mpr rfl
  · exact (probe_resumable_and_filename none (some "bytes")
      "http://h/dir/file.bin?x=1" "http://h/orig").2.1
  · exact (probe_resumable_and_filename none none "" "").2.2
      "http://h/dir/file.bin?x=1" "file.bin" rfl

/-! ## Unique filenames (`src-tauri/src/utils.rs` 10-28, `src-tauri/src/commands.rs`
66-86).  The counter rendered by `format!("{}", counter)` is the decimal
numeral; the following small development proves decimal numerals
injective, which bounds the search for an unused candidate name. -/

/-- The decimal numeral of `n`, most significant digit first (the
specification of `Nat.toDigits 10`). -/
def decRepr (n : Nat) : List Char :=
  if n < 10 then [Nat.digitChar n]
  else decRepr (n / 10) ++ [Nat.digitChar (n % 10)]
decreasing_by exact Nat.div_lt_self (by omega) (by omega)

theorem decRepr_lt (n : Nat) (h : n < 10) :
    decRepr n = [Nat.digitChar n] := by
  rw [decRepr]
  exact if_pos h

theorem decRepr_ge (n : Nat) (h : ¬ n < 10) :
    decRepr n = decRepr (n / 10) ++ [Nat.digitChar (n % 10)] := by
  conv_lhs => rw [decRepr]
  exact if_neg h

theorem toDigitsCore_eq_decRepr :
    ∀ (fuel n : Nat) (acc : List Char), n < fuel →
      Nat.toDigitsCore 10 fuel n acc = decRepr n ++ acc := by
  intro fuel
  induction fuel with
  | zero => intro n acc h; omega
  | succ fuel ih =>
    intro n acc h
    by_cases hn : n / 10 = 0
    · have hn10 : n < 10 := (Nat.div_eq_zero_iff (by omega)).mp hn
      rw [Nat.toDigitsCore]
      simp only [hn, if_pos rfl]
      rw [decRepr_lt n hn10, Nat.mod_eq_of_lt hn10]
      rfl
    · have hn10 : ¬ n < 10 := by
        intro hlt
        exact hn ((Nat.div_eq_zero_iff (by omega)).mpr hlt)
      have hdiv : n / 10 < n := Nat.div_lt_self (by omega) (by omega)
      rw [Nat.toDigitsCore]
      simp only [hn, if_neg hn]
      rw [ih (n / 10) _ (by omega)]
      rw [decRepr_ge n hn10, List.append_assoc]
      rfl

theorem decRepr_ne_nil (n : Nat) : decRepr n ≠ [] := by
  by_cases h : n < 10
  · rw [decRepr_lt n h]
    simp
  · rw [decRepr_ge n h]
    simp

theorem digitChar_inj_lt10 :
    ∀ a < 10, ∀ b < 10, Nat.digitChar a = Nat.digitChar b → a = b := by
  decide

theorem decRepr_inj : ∀ m n : Nat, decRepr m = decRepr n → m = n := by
  intro m
  induction m using Nat.strong_induction_on with
  | _ m ih =>
    intro n h
    by_cases hm : m < 10 <;> by_cases hn : n < 10
    · rw [decRepr_lt m hm, decRepr_lt n hn] at h
      exact digitChar_inj_lt10 m hm n hn (by injection h)
    · rw [decRepr_lt m hm, decRepr_ge n hn] at h
      have hlen := congrArg List.length h
      have hne := decRepr_ne_nil (n / 10)
      simp only [List.length_append, List.length_cons, List.length_nil] at hlen
      cases hd : decRepr (n / 10) with
      | nil => exact absurd hd hne
      | cons a t => rw [hd] at hlen; simp at hlen
    · rw [decRepr_ge m hm, decRepr_lt n hn] at h
      have hlen := congrArg List.length h
      have hne := decRepr_ne_nil (m / 10)
      simp only [List.length_append, List.length_cons, List.length_nil] at hlen
      cases hd : decRepr (m / 10) with
      | nil => exact absurd hd hne
      | cons a t => rw [hd] at hlen; simp at hlen
    · rw [decRepr_ge m hm, decRepr_ge n hn] at h
      have hrev := congrArg List.reverse h
      simp only [List.reverse_append, List.reverse_cons, List.reverse_nil,
        List.nil_append, List.cons_append] at hrev
      have hhead : Nat.digitChar (m % 10) = Nat.digitChar (n % 10) := by
        injection hrev
      have htail : (decRepr (m / 10)).reverse = (decRepr (n / 10)).reverse := by
        injection hrev
      have hmod : m % 10 = n % 10 :=
        digitChar_inj_lt10 (m % 10) (Nat.mod_lt m (by omega)) (n % 10)
          (Nat.mod_lt n (by omega)) hhead
      have hdiv : m / 10 = n / 10 :=
        ih (m / 10) (Nat.div_lt_self (by omega) (by omega)) (n / 10)
          (List.reverse_injective htail)
      omega

theorem natToString_inj (m n : Nat) (h : toString m = toString n) : m = n := by
  have hm : toString m = String.mk (decRepr m) := by
    show Nat.repr m = _
    rw [Nat.repr, Nat.toDigits, toDigitsCore_eq_decRepr (m + 1) m [] (by omega)]
    simp [List.asString]
  have hn : toString n = String.mk (decRepr n) := by
    show Nat.repr n = _
    rw [Nat.repr, Nat.toDigits, toDigitsCore_eq_decRepr (n + 1) n [] (by omega)]
    simp [List.asString]
  rw [hm, hn] at h
  exact decRepr_inj m n (by injection h)

/-- Split a character list at its LAST `'.'`: returns the parts before and
after it, or `none` when there is no dot. -/
def splitLastDot (cs : List Char) : Option (List Char × List Char) :=
  match (cs.reverse.span (fun c => !(c == '.'))) with
  | (_, []) => none
  | (post, _ :: pre) => some (pre.reverse, post.reverse)

/-- Rust `Path::file_stem` / `Path::extension` applied to a plain file name
(no path separators), followed by the code's `unwrap_or("file")` /
`unwrap_or("")` (utils.rs 11-13): `""`, `"."` and `".."` have no file
name (stem falls back to `"file"`); a name whose only dot is leading (such
as `".gitignore"`) has no extension; otherwise the name splits at its last
dot. -/
def splitExt (filename : String) : String × String :=
  if filename = "" ∨ filename = "." ∨ filename = ".." then ("file", "")
  else
    match splitLastDot filename.toList with
    | none => (filename, "")
    | some ([], _) => (filename, "")
    | some (c :: pre, post) => (String.mk (c :: pre), String.mk post)

/-- The candidate name `"<stem> (<k>).<ext>"` built by the loop of
`generate_unique_filename` (utils.rs 16-21); the `".<ext>"` suffix is
omitted when the extension is empty. -/
def candidateName (stem ext : String) (k : Nat) : String :=
  if ext = "" then stem ++ " (" ++ toString k ++ ")"
  else stem ++ " (" ++ toString k ++ ")." ++ ext

/-- The search loop of `generate_unique_filename` (utils.rs 15-27): try
`k = counter, counter+1, …` until the candidate is not in the directory.
The loop in the source is unbounded; the fuel only bounds this model's
recursion and `dirFiles.length + 1` tries always suffice (see
`genLoop_finds` and `fresh_candidate_exists`). -/
def genLoop (dirFiles : List String) (stem ext : String) :
    Nat → Nat → String
  | 0, counter => candidateName stem ext counter
  | fuel + 1, counter =>
    let new_name := candidateName stem ext counter
    if new_name ∈ dirFiles then genLoop dirFiles stem ext fuel (counter + 1)
    else new_name

/-- `generate_unique_filename` (utils.rs 10-28); the directory is modelled
by the list of file names existing in it. -/
def generate_unique_filename (dirFiles : List String) (filename : String) :
    String :=
  genLoop dirFiles (splitExt filename).1 (splitExt filename).2
    (dirFiles.length + 1) 1

/-- `check_file_exists` (commands.rs 66-86): the suggested name is the
input name when it does not exist in the download folder, and otherwise
the result of `generate_unique_filename`. -/
def check_file_exists (dirFiles : List String) (filename : String) :
    Bool × String :=
  if filename ∈ dirFiles then
    (true, generate_unique_filename dirFiles filename)
  else (false, filename)

theorem dropWhile_head_false {α : Type} (p : α → Bool) :
    ∀ (l : List α) (c : α) (rest : List α),
      l.dropWhile p = c :: rest → p c = false := by
  intro l
  induction l with
  | nil => intro c rest h; cases h
  | cons a t ih =>
    intro c rest h
    by_cases hp : p a = true
    · rw [List.dropWhile_cons, if_pos hp] at h
      exact ih c rest h
    · rw [List.dropWhile_cons, if_neg hp] at h
      injection h with h1 h2
      subst h1
      exact Bool.eq_false_iff.mpr hp

theorem splitLastDot_spec (cs pre post : List Char)
    (h : splitLastDot cs = some (pre, post)) :
    cs = pre ++ '.' :: post ∧ '.' ∉ post := by
  unfold splitLastDot at h
  rw [List.span_eq_take_drop] at h
  cases hd : cs.reverse.dropWhile (fun c => !(c == '.')) with
  | nil => rw [hd] at h; cases h
  | cons c rest =>
    rw [hd] at h
    injection h with h
    injection h with h1 h2
    have hc : c = '.' := by
      have := dropWhile_head_false (fun c => !(c == '.')) cs.reverse c rest hd
      simpa using this
    have hsplit : cs.reverse = cs.reverse.takeWhile (fun c => !(c == '.')) ++
        c :: rest := by
      rw [← hd, List.takeWhile_append_dropWhile]
    constructor
    · have := congrArg List.reverse hsplit
      simp only [List.reverse_reverse, List.reverse_append,
        List.reverse_cons] at this
      rw [this, ← h1, ← h2, hc]
      simp
    · intro hmem
      rw [← h2] at hmem
      rw [List.mem_reverse] at hmem
      have := List.mem_takeWhile_imp hmem
      simp at this

theorem candidateName_noext (stem : String) (k : Nat) :
    candidateName stem "" k = stem ++ " (" ++ toString k ++ ")" := by
  rw [candidateName, if_pos rfl]

theorem candidateName_ext (stem ext : String) (he : ¬ ext = "") (k : Nat) :
    candidateName stem ext k = stem ++ " (" ++ toString k ++ ")." ++ ext := by
  rw [candidateName, if_neg he]

theorem candidateName_inj (stem ext : String) (j k : Nat)
    (h : candidateName stem ext j = candidateName stem ext k) : j = k := by
  by_cases he : ext = ""
  · subst he
    rw [candidateName_noext, candidateName_noext] at h
    have hdata := congrArg String.data h
    simp only [String.data_append, List.append_assoc] at hdata
    have h1 := List.append_cancel_left hdata
    have h2 := List.append_cancel_left h1
    have h3 := List.append_cancel_right h2
    exact natToString_inj j k (congrArg String.mk h3)
  · rw [candidateName_ext stem ext he, candidateName_ext stem ext he] at h
    have hdata := congrArg String.data h
    simp only [String.data_append, List.append_assoc] at hdata
    have h1 := List.append_cancel_left hdata
    have h2 := List.append_cancel_left h1
    have h3 := List.append_cancel_right h2
    exact natToString_inj j k (congrArg String.mk h3)

theorem candidateName_len_noext (stem : String) (k : Nat) :
    (candidateName stem "" k).length =
      stem.length + 3 + (toString k).length := by
  rw [candidateName_noext]
  rw [String.length_append, String.length_append, String.length_append]
  have l1 : (" (" : String).length = 2 := rfl
  have l2 : (")" : String).length = 1 := rfl
  omega

theorem candidateName_len_ext (stem ext : String) (he : ¬ ext = "") (k : Nat) :
    (candidateName stem ext k).length =
      stem.length + 3 + (toString k).length + 1 + ext.length := by
  rw [candidateName_ext stem ext he]
  rw [String.length_append, String.length_append, String.length_append,
    String.length_append]
  have l1 : (" (" : String).length = 2 := rfl
  have l3 : (")." : String).length = 2 := rfl
  omega

theorem splitExt_len_bound (filename : String) :
    filename.length ≤
      (splitExt filename).1.length + 1 + (splitExt filename).2.length := by
  unfold splitExt
  by_cases hsp : filename = "" ∨ filename = "." ∨ filename = ".."
  · rw [if_pos hsp]
    show filename.length ≤ ("file" : String).length + 1 + ("" : String).length
    have hf : ("file" : String).length = 4 := rfl
    have h0 : ("" : String).length = 0 := rfl
    have : filename.length ≤ 2 := by
      rcases hsp with h | h | h <;> subst h <;> decide
    omega
  · rw [if_neg hsp]
    cases hd : splitLastDot filename.toList with
    | none =>
        show filename.length ≤ filename.length + 1 + ("" : String).length
        omega
    | some pr =>
        obtain ⟨pre, post⟩ := pr
        cases pre with
        | nil =>
            show filename.length ≤ filename.length + 1 + ("" : String).length
            omega
        | cons c pre' =>
            show filename.length ≤
              (String.mk (c :: pre')).length + 1 + (String.mk post).length
            obtain ⟨hsplit, -⟩ :=
              splitLastDot_spec filename.toList (c :: pre') post hd
            have hflen : filename.length = pre'.length + 2 + post.length := by
              show filename.data.length = _
              have hsplit' : filename.data = (c :: pre') ++ '.' :: post :=
                hsplit
              rw [hsplit']
              simp only [List.length_append, List.length_cons]
              omega
            have h1 : (String.mk (c :: pre')).length = pre'.length + 1 := rfl
            have h2 : (String.mk post).length = post.length := rfl
            omega

theorem candidateName_longer (filename : String) (k : Nat) :
    filename.length <
      (candidateName (splitExt filename).1 (splitExt filename).2 k).length := by
  have hb := splitExt_len_bound filename
  by_cases he : (splitExt filename).2 = ""
  · rw [he] at hb ⊢
    rw [candidateName_len_noext]
    have h0 : ("" : String).length = 0 := rfl
    omega
  · rw [candidateName_len_ext _ _ he]
    omega

theorem genLoop_finds (dirFiles : List String) (stem ext : String) :
    ∀ (fuel counter : Nat),
      (∃ j, counter ≤ j ∧ j < counter + fuel ∧
        candidateName stem ext j ∉ dirFiles) →
      ∃ k, counter ≤ k ∧
        genLoop dirFiles stem ext fuel counter = candidateName stem ext k ∧
        candidateName stem ext k ∉ dirFiles ∧
        ∀ j, counter ≤ j → j < k → candidateName stem ext j ∈ dirFiles := by
  intro fuel
  induction fuel with
  | zero =>
    intro counter hex
    obtain ⟨j, h1, h2, -⟩ := hex
    omega
  | succ fuel ih =>
    intro counter hex
    by_cases hc : candidateName stem ext counter ∈ dirFiles
    · have hex' : ∃ j, counter + 1 ≤ j ∧ j < counter + 1 + fuel ∧
          candidateName stem ext j ∉ dirFiles := by
        obtain ⟨j, h1, h2, h3⟩ := hex
        refine ⟨j, ?_, by omega, h3⟩
        rcases Nat.eq_or_lt_of_le h1 with h | h
        · exact absurd hc (h ▸ h3)
        · omega
      obtain ⟨k, hk1, hk2, hk3, hk4⟩ := ih (counter + 1) hex'
      refine ⟨k, by omega, ?_, hk3, ?_⟩
      · rw [genLoop, if_pos hc]
        exact hk2
      · intro j hj1 hj2
        rcases Nat.eq_or_lt_of_le hj1 with h | h
        · exact h ▸ hc
        · exact hk4 j h hj2
    · refine ⟨counter, Nat.le_refl _, ?_, hc, ?_⟩
      · rw [genLoop, if_neg hc]
      · intro j hj1 hj2
        omega

theorem fresh_candidate_exists (dirFiles : List String) (stem ext : String) :
    ∃ j, 1 ≤ j ∧ j < 1 + (dirFiles.length + 1) ∧
      candidateName stem ext j ∉ dirFiles := by
  by_contra hcon
  push_neg at hcon
  have hall : ∀ i < dirFiles.length + 1,
      candidateName stem ext (i + 1) ∈ dirFiles := by
    intro i hi
    exact hcon (i + 1) (by omega) (by omega)
  have hinj : Function.Injective (fun i => candidateName stem ext (i + 1)) := by
    intro a b hab
    have := candidateName_inj stem ext (a + 1) (b + 1) hab
    omega
  have hnodup : ((List.range (dirFiles.length + 1)).map
      (fun i => candidateName stem ext (i + 1))).Nodup :=
    (List.nodup_range _).map hinj
  have hsub : ((List.range (dirFiles.length + 1)).map
      (fun i => candidateName stem ext (i + 1))) ⊆ dirFiles := by
    intro x hx
    rw [List.mem_map] at hx
    obtain ⟨i, hi, rfl⟩ := hx
    rw [List.mem_range] at hi
    exact hall i hi
  have hcard1 : ((List.range (dirFiles.length + 1)).map
      (fun i => candidateName stem ext (i + 1))).toFinset.card =
      dirFiles.length + 1 := by
    rw [List.card_toFinset, hnodup.dedup]
    simp
  have hcard2 : ((List.range (dirFiles.length + 1)).map
      (fun i => candidateName stem ext (i + 1))).toFinset ⊆
      dirFiles.toFinset := by
    intro x hx
    rw [List.mem_toFinset] at hx ⊢
    exact hsub hx
  have := Finset.card_le_card hcard2
  have hle := List.toFinset_card_le dirFiles
  omega

/-- C6 (counterexample): `generate_unique_filename` never returns the
input name — even in an empty directory, where `dir/name` does not exist,
it returns `"a (1).txt"` for `"a.txt"` — so the claim's "returns `name`
iff `dir/name` does not exist", read of `generate_unique_filename`, is
false.  (It holds of the enclosing `check_file_exists` operation.) -/
theorem unique_filename_claim_counterexample :
    generate_unique_filename [] "a.txt" = "a (1).txt" ∧
    "a.txt" ∉ ([] : List String) ∧
    ("a.txt" : String) ≠ "a (1).txt" := by
  refine ⟨rfl, by simp, by decide⟩

/-- C6 (amended): the unique-filename operation exposed by the control
surface (`check_file_exists`, which calls `generate_unique_filename` when
the name exists) returns `name` if and only if `dir/name` does not exist;
otherwise it returns `"<stem> (<k>).<ext>"` for the lowest `k = 1, 2, …`
such that that candidate does not exist in `dir`, where `stem`/`ext` are
the Rust `Path::file_stem`/`extension` of `name` (the portion before the
final dot; a name whose only dot is leading has no extension) and the
`".<ext>"` suffix is omitted when the extension is empty. -/
theorem unique_filename_spec (dirFiles : List String) (filename : String) :
    ((check_file_exists dirFiles filename).2 = filename ↔
      filename ∉ dirFiles) ∧
    (filename ∈ dirFiles →
      ∃ k, 1 ≤ k ∧
        (check_file_exists dirFiles filename).2 =
          candidateName (splitExt filename).1 (splitExt filename).2 k ∧
        candidateName (splitExt filename).1 (splitExt filename).2 k ∉
          dirFiles ∧
        ∀ j, 1 ≤ j → j < k →
          candidateName (splitExt filename).1 (splitExt filename).2 j ∈
            dirFiles) := by
  by_cases hmem : filename ∈ dirFiles
  · have hfind := genLoop_finds dirFiles (splitExt filename).1
      (splitExt filename).2 (dirFiles.length + 1) 1
      (fresh_candidate_exists dirFiles (splitExt filename).1
        (splitExt filename).2)
    obtain ⟨k, hk1, hk2, hk3, hk4⟩ := hfind
    have hsugg : (check_file_exists dirFiles filename).2 =
        candidateName (splitExt filename).1 (splitExt filename).2 k := by
      rw [check_file_exists, if_pos hmem]
      exact hk2
    constructor
    · constructor
      · intro heq
        have hcf : candidateName (splitExt filename).1 (splitExt filename).2 k
            = filename := by
          rw [← hsugg, heq]
        have hlt := candidateName_longer filename k
        rw [hcf] at hlt
        exact (Nat.lt_irrefl _ hlt).elim
      · intro hnot
        exact absurd hmem hnot
    · intro _
      exact ⟨k, hk1, hsugg, hk3, hk4⟩
  · rw [check_file_exists, if_neg hmem]
    exact ⟨⟨fun _ => hmem, fun _ => rfl⟩, fun h => absurd h hmem⟩

/-- Witness for the amended C6: in a directory containing `"a.txt"` and
`"a (1).txt"`, the suggested name for `"a.txt"` is the lowest-`k`
candidate; and the suggested name equals the input iff the input is
absent. -/
theorem unique_filename_spec_witness :
    (¬ (check_file_exists ["a.txt", "a (1).txt"] "a.txt").2 = "a.txt") ∧
    ∃ k, 1 ≤ k ∧
      (check_file_exists ["a.txt", "a (1).txt"] "a.txt").2 =
        candidateName (splitExt "a.txt").1 (splitExt "a.txt").2 k ∧
      candidateName (splitExt "a.txt").1 (splitExt "a.txt").2 k ∉
        ["a.txt", "a (1).txt"] ∧
      ∀ j, 1 ≤ j → j < k →
        candidateName (splitExt "a.txt").1 (splitExt "a.txt").2 j ∈
          ["a.txt", "a (1).txt"] := by
  constructor
  · intro h
    exact absurd ((unique_filename_spec ["a.txt", "a (1).txt"] "a.txt").1.mp h)
      (by simp)
  · exact (unique_filename_spec ["a.txt", "a (1).txt"] "a.txt").2 (by simp)

/-! ## Ledger persistence (`src-tauri/src/persistence.rs` 57-89).
`DownloadHistory::save` serializes the struct with `serde_json` and writes
the file; `load` reads and parses it, falling back to the empty ledger on
absence or parse error.  The file layer is modelled as the identity on the
JSON document, and the serde-derived (de)serialization of each struct and
enum is embedded field by field. -/

/-- A JSON document.  `serde_json` numbers here are always integers
(`u64`/`i64` fields), modelled as `Int`. -/
inductive Json where
  | null
  | bool (b : Bool)
  | num (n : Int)
  | str (s : String)
  | arr (elems : List Json)
  | obj (fields : List (String × Json))

def Json.getField : Json → String → Option Json
  | Json.obj fields, k => (fields.find? (fun p => p.1 = k)).map (·.2)
  | _, _ => none

def Json.asNat : Json → Option Nat
  | Json.num n => if 0 ≤ n then some n.toNat else none
  | _ => none

def Json.asInt : Json → Option Int
  | Json.num n => some n
  | _ => none

def Json.asStr : Json → Option String
  | Json.str s => some s
  | _ => none

def Json.asBool : Json → Option Bool
  | Json.bool b => some b
  | _ => none

def Json.asArr : Json → Option (List Json)
  | Json.arr l => some l
  | _ => none

def Json.asObj : Json → Option (List (String × Json))
  | Json.obj l => some l
  | _ => none

/-- serde serialization of the unit-variant enum `DownloadStatus`: the
variant name as a JSON string. -/
def DownloadStatus.toJson : DownloadStatus → Json
  | DownloadStatus.Pending => Json.str "Pending"
  | DownloadStatus.Downloading => Json.str "Downloading"
  | DownloadStatus.Paused => Json.str "Paused"
  | DownloadStatus.Completed => Json.str "Completed"
  | DownloadStatus.Failed => Json.str "Failed"
  | DownloadStatus.Cancelled => Json.str "Cancelled"

def DownloadStatus.fromJson? : Json → Option DownloadStatus
  | Json.str s =>
    if s = "Pending" then some DownloadStatus.Pending
    else if s = "Downloading" then some DownloadStatus.Downloading
    else if s = "Paused" then some DownloadStatus.Paused
    else if s = "Completed" then some DownloadStatus.Completed
    else if s = "Failed" then some DownloadStatus.Failed
    else if s = "Cancelled" then some DownloadStatus.Cancelled
    else none
  | _ => none

def ChunkRecord.toJson (c : ChunkRecord) : Json :=
  Json.obj [("id", Json.num c.id), ("start", Json.num c.start),
    ("end", Json.num c.«end»), ("downloaded", Json.num c.downloaded)]

def ChunkRecord.fromJson? (j : Json) : Option ChunkRecord := do
  let id ← (j.getField "id").bind Json.asNat
  let start ← (j.getField "start").bind Json.asNat
  let e ← (j.getField "end").bind Json.asNat
  let downloaded ← (j.getField "downloaded").bind Json.asNat
  pure ⟨id, start, e, downloaded⟩

def DownloadRecord.toJson (r : DownloadRecord) : Json :=
  Json.obj [("id", Json.str r.id), ("url", Json.str r.url),
    ("filename", Json.str r.filename), ("file_path", Json.str r.file_path),
    ("total_size", Json.num r.total_size),
    ("resumable", Json.bool r.resumable),
    ("status", r.status.toJson),
    ("num_connections", Json.num r.num_connections),
    ("chunks", Json.arr (r.chunks.map ChunkRecord.toJson)),
    ("created_at", Json.num r.created_at),
    ("updated_at", Json.num r.updated_at)]

def DownloadRecord.fromJson? (j : Json) : Option DownloadRecord := do
  let id ← (j.getField "id").bind Json.asStr
  let url ← (j.getField "url").bind Json.asStr
  let filename ← (j.getField "filename").bind Json.asStr
  let file_path ← (j.getField "file_path").bind Json.asStr
  let total_size ← (j.getField "total_size").bind Json.asNat
  let resumable ← (j.getField "resumable").bind Json.asBool
  let status ← (j.getField "status").bind DownloadStatus.fromJson?
  let num_connections ← (j.getField "num_connections").bind Json.asNat
  let chunksJson ← (j.getField "chunks").bind Json.asArr
  let chunks ← chunksJson.mapM ChunkRecord.fromJson?
  let created_at ← (j.getField "created_at").bind Json.asInt
  let updated_at ← (j.getField "updated_at").bind Json.asInt
  pure ⟨id, url, filename, file_path, total_size, resumable, status,
    num_connections, chunks, created_at, updated_at⟩

/-- The in-memory `DownloadHistory` struct (its `downloads` map). -/
structure DownloadHistoryM where
  downloads : List (String × DownloadRecord)
deriving DecidableEq, Repr

def DownloadHistoryM.toJson (h : DownloadHistoryM) : Json :=
  Json.obj [("downloads",
    Json.obj (h.downloads.map (fun p => (p.1, p.2.toJson))))]

def DownloadHistoryM.fromJson? (j : Json) : Option DownloadHistoryM := do
  let d ← (j.getField "downloads").bind Json.asObj
  let entries ← d.mapM (fun p =>
    (DownloadRecord.fromJson? p.2).map (fun r => (p.1, r)))
  pure ⟨entries⟩

/-- `DownloadHistory::save` (persistence.rs 72-89): serialize the ledger;
the write to disk is the identity on the document. -/
def DownloadHistory.save (h : DownloadHistoryM) : Json := h.toJson

/-- `DownloadHistory::load` (persistence.rs 57-70): parse the persisted
document, `unwrap_or_default` on failure. -/
def DownloadHistory.load (j : Json) : DownloadHistoryM :=
  (DownloadHistoryM.fromJson? j).getD ⟨[]⟩

theorem asNat_num (n : Nat) : Json.asNat (Json.num n) = some n := by
  simp [Json.asNat]

theorem status_roundtrip (s : DownloadStatus) :
    DownloadStatus.fromJson? s.toJson = some s := by
  cases s <;> rfl

theorem chunk_roundtrip (c : ChunkRecord) :
    ChunkRecord.fromJson? c.toJson = some c := by
  simp [ChunkRecord.toJson, ChunkRecord.fromJson?, Json.getField, asNat_num]

theorem mapM_loop_roundtrip {α β : Type} (f : α → β) (g : β → Option α)
    (hfg : ∀ a, g (f a) = some a) :
    ∀ (l : List α) (acc : List α),
      List.mapM.loop g (l.map f) acc = some (acc.reverse ++ l) := by
  intro l
  induction l with
  | nil =>
    intro acc
    simp [List.mapM.loop]
  | cons a t ih =>
    intro acc
    rw [List.map_cons, List.mapM.loop]
    simp only [hfg, Option.bind_eq_bind, Option.some_bind]
    rw [ih (a :: acc)]
    simp

theorem mapM_roundtrip {α β : Type} (f : α → β) (g : β → Option α)
    (hfg : ∀ a, g (f a) = some a) (l : List α) :
    List.mapM g (l.map f) = some l := by
  have : List.mapM g (l.map f) = List.mapM.loop g (l.map f) [] := rfl
  rw [this, mapM_loop_roundtrip f g hfg l []]
  simp

theorem mapM_loop_nilacc {α β : Type} (f : α → β) (g : β → Option α)
    (hfg : ∀ a, g (f a) = some a) (l : List α) :
    List.mapM.loop g (l.map f) [] = some l := by
  rw [mapM_loop_roundtrip f g hfg l []]
  simp

theorem record_roundtrip (r : DownloadRecord) :
    DownloadRecord.fromJson? r.toJson = some r := by
  simp [DownloadRecord.toJson, DownloadRecord.fromJson?, Json.getField,
    asNat_num, Json.asStr, Json.asBool, Json.asInt, Json.asArr,
    status_roundtrip, mapM_loop_nilacc ChunkRecord.toJson
      ChunkRecord.fromJson? chunk_roundtrip]

/-- C9: persisting the ledger and loading it back restores a ledger whose
records are equal to the saved ones — in particular every record's `id`,
`url`, `filename`, `file_path`, `total_size`, `resumable`, `status`,
`num_connections`, chunk list and `created_at` are preserved (the
round trip in fact also preserves `updated_at`). -/
theorem history_save_load_roundtrip (h : DownloadHistoryM) :
    DownloadHistory.load (DownloadHistory.save h) = h ∧
    ∀ id, (lookupA (DownloadHistory.load (DownloadHistory.save h)).downloads
        id).map (fun r => (r.id, r.url, r.filename, r.file_path,
          r.total_size, r.resumable, r.status, r.num_connections, r.chunks,
          r.created_at)) =
      (lookupA h.downloads id).map (fun r => (r.id, r.url, r.filename,
        r.file_path, r.total_size, r.resumable, r.status,
        r.num_connections, r.chunks, r.created_at)) := by
  have hload : DownloadHistory.load (DownloadHistory.save h) = h := by
    have hfrom : DownloadHistoryM.fromJson? h.toJson = some h := by
      simp [DownloadHistoryM.toJson, DownloadHistoryM.fromJson?,
        Json.getField, Json.asObj,
        mapM_loop_nilacc (fun p : String × DownloadRecord => (p.1, p.2.toJson))
          (fun p => (DownloadRecord.fromJson? p.2).map (fun r => (p.1, r)))
          (fun p => by simp [record_roundtrip])]
    simp [DownloadHistory.load, DownloadHistory.save, hfrom]
  exact ⟨hload, fun id => by rw [hload]⟩

end Wdm
